import Mathlib

/-!
# Verification of the p84 research-assistant backend core

Shallow embedding of the outline tree, planning/phase and brainstorm
operations of the `research_assistant` Flask application, together with
proofs settling the frozen specification claims.

The embedded functions mirror, line by line, the Python view functions in
`research_assistant/outline/views.py`, `research_assistant/dashboard/views.py`
and `research_assistant/brain/views.py`.  The relational store is modelled as
explicit lists of records threaded through each operation; autoincrement
primary keys are modelled by per-table counters.  The ORM model declarations
(`outline/models.py`, `planning/models.py`, `brain/models.py`) are not part of
the provided sources; the record types and the parent/child and phase/task
relationships below are modelled from the specification's data-model section
(§3): a Section's children are the Sections whose parent link carries its
identifier, a Phase's tasks are the Tasks whose phase link carries its
identifier.  Wall-clock timestamps of the fixed reference time zone are
modelled as integer microsecond counts on a linear timeline.
-/

namespace P84

/-- A node of a per-user outline tree (spec §3 `Section`); fields mirror the
keyword arguments of the `Section(...)` constructor call in
`outline/views.py` (`created_at` is not modelled: no claim observes it). -/
structure Section where
  id : Nat
  title : String
  summary : Option String
  order : Nat
  parentId : Option Nat
  userId : Nat
deriving DecidableEq, Repr

/-- A planning phase (spec §3 `Phase`); `deadline` is a calendar date,
modelled as a day index of the fixed reference time zone. -/
structure Phase where
  id : Nat
  title : String
  userId : Nat
  startDate : Option Int
  endDate : Option Int
  deadline : Option Int
deriving DecidableEq, Repr

/-- A unit of work under a phase (spec §3 `Task`). -/
structure Task where
  id : Nat
  description : String
  completed : Bool
  userId : Nat
  phaseId : Nat
deriving DecidableEq, Repr

/-- The 5W answers of a brainstorm entry; each field mirrors
`fiveW.get('...')` in `brain/views.py`, `none` modelling an absent key. -/
structure FiveW where
  why : Option String
  what : Option String
  whereAnswer : Option String
  whenAnswer : Option String
  who : Option String
deriving DecidableEq, Repr

/-- A brainstorm session entry (`BrainEntry` in `brain/views.py`);
`messages` holds the already-serialized JSON string. -/
structure BrainEntry where
  id : Nat
  fiveW : FiveW
  messages : String
  overallFeedback : String
  completed : Bool
  userId : Nat
deriving DecidableEq, Repr

/-- The relational store: one list per table, in insertion (primary-key)
order, plus the autoincrement counters. -/
structure DB where
  sections : List Section
  phases : List Phase
  tasks : List Task
  brains : List BrainEntry
  nextSectionId : Nat
  nextTaskId : Nat
  nextBrainId : Nat
deriving DecidableEq, Repr

/-- Modelled from the spec: `planning/models.py` is absent from the sources;
per §3 a Phase owns the Tasks that reference it, so `phase.tasks` is the
sublist of the task table carrying the phase's identifier, in insertion
order. -/
def tasksOf (d : DB) (p : Phase) : List Task :=
  d.tasks.filter (fun t => t.phaseId = p.id)

/-- Modelled from the spec: `outline/models.py` is absent from the sources;
per §3 a Section's children (`node.subsections`) are the Sections whose
parent link references it. -/
def childSections (secs : List Section) (pid : Nat) : List Section :=
  secs.filter (fun s => s.parentId = some pid)

/-! ## Outline save (`outline/views.py`, `_recreate_sections` / `save_outline`) -/

/-- One node descriptor of the client payload: `title` is `item['title']`
(`none` models a missing key, which raises `KeyError` in the code),
`summary` is `item.get('summary')`, `subsections` is
`item.get('subsections', [])`. -/
inductive SectionInput where
  | mk (title : Option String) (summary : Option String)
       (subsections : List SectionInput) : SectionInput

def SectionInput.title : SectionInput → Option String
  | .mk t _ _ => t

def SectionInput.summary : SectionInput → Option String
  | .mk _ s _ => s

def SectionInput.subsections : SectionInput → List SectionInput
  | .mk _ _ c => c

mutual

/-- The body of the `for idx, item in enumerate(items)` loop of
`_recreate_sections`, applied to one descriptor `item` at enumerate index
`idx`: read `item['title']` (a missing title raises `KeyError`), create the
row with `order = idx` and the fresh autoincrement id (the `flush()` making
it available to the children), then run the `for child in
item.get('subsections', [])` loop.  Returns the created rows in insertion
order together with the advanced id counter. -/
def recreateOne : SectionInput → Nat → Nat → Option Nat → Nat →
    Except String (List Section × Nat)
  | .mk none _ _, _, _, _, _ => .error "KeyError: title"
  | .mk (some t) summaryOpt subs, idx, userId, parentId, nextId =>
    let sec : Section :=
      { id := nextId, title := t, summary := summaryOpt, order := idx
        parentId := parentId, userId := userId }
    match recreateChildren subs userId nextId (nextId + 1) with
    | .error e => .error e
    | .ok (cs, n) => .ok (sec :: cs, n)

/-- The `for child in item.get('subsections', [])` loop: the code calls
`_recreate_sections([child], user_id, parent_id=sec.id)` on a singleton
list, so each child runs the loop body with enumerate index 0. -/
def recreateChildren (children : List SectionInput) (userId : Nat)
    (parentId : Nat) (nextId : Nat) : Except String (List Section × Nat) :=
  match children with
  | [] => .ok ([], nextId)
  | c :: rest =>
    match recreateOne c 0 userId (some parentId) nextId with
    | .error e => .error e
    | .ok (cs, n) =>
      match recreateChildren rest userId parentId n with
      | .error e => .error e
      | .ok (rs, n2) => .ok (cs ++ rs, n2)

end

/-- Embeds `_recreate_sections(items, user_id, parent_id)` with the enumerate index
threaded explicitly (the top-level call starts it at 0). -/
def recreateAux (items : List SectionInput) (idx : Nat) (userId : Nat)
    (parentId : Option Nat) (nextId : Nat) : Except String (List Section × Nat) :=
  match items with
  | [] => .ok ([], nextId)
  | item :: rest =>
    match recreateOne item idx userId parentId nextId with
    | .error e => .error e
    | .ok (secs, n) =>
      match recreateAux rest (idx + 1) userId parentId n with
      | .error e => .error e
      | .ok (rs, n2) => .ok (secs ++ rs, n2)

/-- Embeds `_recreate_sections(items, user_id, parent_id=None)`. -/
def recreateSections (items : List SectionInput) (userId : Nat)
    (parentId : Option Nat) (nextId : Nat) : Except String (List Section × Nat) :=
  recreateAux items 0 userId parentId nextId

/-- Outcome of an HTTP endpoint, as (status code, success flag, message). -/
structure ApiResponse where
  status : Nat
  success : Bool
  message : String
deriving DecidableEq, Repr

/-- Embeds `save_outline`: the `outline` argument models
`(request.get_json() or {}).get('outline', [])`, so an absent or null body
is the empty list.  An empty outline is rejected with no touch of the store.
Otherwise the code runs `Section.query.filter_by(user_id=uid).delete()`
followed by `db.session.commit()` — the deletion is committed on its own —
and then `_recreate_sections` followed by a second commit.  A failure inside
`_recreate_sections` aborts the request before the second commit, so the
committed state it leaves behind is the post-deletion state. -/
def save_outline (d : DB) (uid : Nat) (outline : List SectionInput) :
    ApiResponse × DB :=
  if outline.isEmpty then
    ({ status := 400, success := false, message := "Cannot save empty outline!" }, d)
  else
    let committed : DB :=
      { d with sections := d.sections.filter (fun s => !(s.userId = uid)) }
    match recreateSections outline uid none committed.nextSectionId with
    | .error _ =>
        ({ status := 500, success := false, message := "Internal Server Error" }, committed)
    | .ok (newSecs, n) =>
        ({ status := 201, success := true, message := "Outline saved" },
         { committed with sections := committed.sections ++ newSecs, nextSectionId := n })

/-! ## Outline delete (`outline/views.py`, `delete_outline`) -/

/-- The identifiers removed by `_delete_subtree`, post-order: all children's
subtrees first, then the node itself.  The Python recursion walks the live
`subsections` relationship; on the acyclic states the application maintains
the traversal depth is bounded by the table size, so the recursion is
embedded with an explicit fuel argument. -/
def subtreeIds (secs : List Section) : Nat → Nat → List Nat
  | 0, i => [i]
  | fuel + 1, i =>
      ((childSections secs i).map (fun c => c.id)).flatMap (subtreeIds secs fuel) ++ [i]

/-- Embeds `delete_outline(sec_id)`: look up the section by id *and* owner
(`first_or_404`, `none` modelling the 404), then remove its entire subtree;
the 204 success response carries no body. -/
def delete_outline (d : DB) (uid : Nat) (secId : Nat) : Option DB :=
  match (d.sections.filter (fun s => s.id = secId && s.userId = uid)).head? with
  | none => none
  | some sec =>
    let doomed := subtreeIds d.sections d.sections.length sec.id
    some { d with sections := d.sections.filter (fun s => !(s.id ∈ doomed)) }

/-! ## Dashboard phase-status derivation (`dashboard/views.py`, `fetch_planning`) -/

/-- One microsecond-resolution day of the fixed reference time zone. -/
def dayMicros : Int := 86400000000

/-- The instant `datetime.combine(deadline, datetime.max.time())`: the last microsecond
of the deadline's calendar day. -/
def endOfDay (deadline : Int) : Int := (deadline + 1) * dayMicros - 1

/-- The window `warning_threshold = timedelta(days=7)`. -/
def warning_threshold : Int := 7 * dayMicros

/-- The fixed display order of the five canonical phase titles
(`desired_order` in `fetch_planning`). -/
def desired_order : List String :=
  ["Define Topic & Question", "Literature Review", "Identify Gaps",
   "Plan Methodology", "Write & Revise"]

/-- The status computation of the `if phase:` branch of `fetch_planning`:
`status = "NotCompleted"`, upgraded to `"Completed"` when the task list is
non-empty with every task completed (`if tasks and all(...)`); otherwise,
when a deadline is set (a date is always truthy), compared against `now`. -/
def phaseStatus (tasks : List Task) (deadline : Option Int) (now : Int) : String :=
  if !tasks.isEmpty && tasks.all (fun t => t.completed) then "Completed"
  else
    match deadline with
    | none => "NotCompleted"
    | some dl =>
      if endOfDay dl < now then "Not Completed (Overdue)"
      else if endOfDay dl - now ≤ warning_threshold then
        "Not Completed (Deadline Approaching)"
      else "NotCompleted"

/-- Embeds `{p.title: p for p in user_phases}.get(title)`: a dict comprehension
keeps the *last* phase inserted under each title, so the lookup returns the
last matching phase, or `None`. -/
def lookupPhase (phases : List Phase) (title : String) : Option Phase :=
  (phases.filter (fun p => p.title = title)).getLast?

/-- One record of the dashboard response. -/
structure PhaseRecord where
  id : Nat
  title : String
  status : String
deriving DecidableEq, Repr

/-- The body of the `for index, title in enumerate(desired_order)` loop:
the synthesized id is `index + 1`; a missing phase yields `NotCompleted`. -/
def phaseRecordFor (d : DB) (userPhases : List Phase) (now : Int)
    (index : Nat) (title : String) : PhaseRecord :=
  match lookupPhase userPhases title with
  | some phase =>
      { id := index + 1, title := phase.title
        status := phaseStatus (tasksOf d phase) phase.deadline now }
  | none => { id := index + 1, title := title, status := "NotCompleted" }

/-- Embeds `fetch_planning`: filter the phase table by the caller
(`Phase.query.filter_by(user_id=uid).all()`, the `user_phases` local), then
emit one record per canonical title in the fixed order. -/
def fetch_planning (d : DB) (uid : Nat) (now : Int) : List PhaseRecord :=
  desired_order.enum.map
    (fun it => phaseRecordFor d (d.phases.filter (fun p => p.userId = uid)) now it.1 it.2)

/-! ## Brainstorm save (`brain/views.py`, `save_brainstorm_session`) -/

/-- The parsed request body of `/brainstorm/save`. -/
structure BrainInput where
  fiveW : FiveW
  messages : String
  overallFeedback : String
  completed : Bool
deriving DecidableEq, Repr

/-- Python truthiness of an optional string: `None` and `''` are falsy. -/
def truthy : Option String → Bool
  | none => false
  | some s => !(s = "")

/-- Embeds `all([entry.why, entry.what, entry.where, entry.when, entry.who])`. -/
def fiveWComplete (w : FiveW) : Bool :=
  truthy w.why && truthy w.what && truthy w.whereAnswer &&
    truthy w.whenAnswer && truthy w.who

/-- The title used by the brainstorming-complete hook. -/
def defineTopicTitle : String := "Define Topic & Question"

/-- The completion task description used by the hook. -/
def brainstormCompleteDesc : String := "Brainstorm Complete"

/-- The completion hook inside `save_brainstorm_session` (the
`if all([entry.why, ...])` block), factored out over the store it queries:
when all five 5W answers are truthy, look up
`Phase.query.filter_by(title='Define Topic & Question').first()` — note:
*not* filtered by `user_id` — and, when such a phase exists and its task
list has no `'Brainstorm Complete'` task yet, append one with
`completed=True` (and `user_id` set to the caller). -/
def brainstormHook (d : DB) (uid : Nat) (w : FiveW) : DB :=
  if fiveWComplete w then
    match (d.phases.filter (fun p => p.title = defineTopicTitle)).head? with
    | some phase =>
      if (tasksOf d phase).any (fun t => t.description = brainstormCompleteDesc) then d
      else
        { d with
            tasks := d.tasks ++
              [{ id := d.nextTaskId, description := brainstormCompleteDesc
                 completed := true, userId := uid, phaseId := phase.id }]
            nextTaskId := d.nextTaskId + 1 }
    | none => d
  else d

/-- The session state right after `entry = BrainEntry(...);
db.session.add(entry)`: the new entry is inserted with the fresh
autoincrement id. -/
def withBrainEntry (d : DB) (uid : Nat) (input : BrainInput) : DB :=
  { d with
      brains := d.brains ++
        [{ id := d.nextBrainId, fiveW := input.fiveW, messages := input.messages
           overallFeedback := input.overallFeedback, completed := input.completed
           userId := uid }]
      nextBrainId := d.nextBrainId + 1 }

/-- Embeds `save_brainstorm_session`: insert the new `BrainEntry`, then run the
completion hook on the session state; one commit at the end.  Returns the
new entry's id together with the committed store. -/
def save_brainstorm_session (d : DB) (uid : Nat) (input : BrainInput) :
    Nat × DB :=
  (d.nextBrainId, brainstormHook (withBrainEntry d uid input) uid input.fiveW)

/-- Iterates the brainstorm save with the same payload `n` times. -/
def iterateBrainSave (uid : Nat) (input : BrainInput) : Nat → DB → DB
  | 0, d => d
  | n + 1, d => iterateBrainSave uid input n (save_brainstorm_session d uid input).2

end P84

namespace P84

/-! ## Shared helper lemmas -/

/-- The last element reported by `getLast?` is a member of the list. -/
theorem getLast?_mem_list {α : Type _} {l : List α} {a : α}
    (h : l.getLast? = some a) : a ∈ l := by
  obtain ⟨hne, rfl⟩ :=
    List.mem_getLast?_eq_getLast (l := l) (x := a) (Option.mem_def.mpr h)
  exact List.getLast_mem hne

/-- A phase found by `lookupPhase` is in the list and bears the title. -/
theorem lookupPhase_mem {phases : List Phase} {t : String} {p : Phase}
    (h : lookupPhase phases t = some p) : p ∈ phases ∧ p.title = t := by
  have hmem := getLast?_mem_list h
  have := List.mem_filter.mp hmem
  exact ⟨this.1, of_decide_eq_true this.2⟩

/-- The completion hook never touches the phase table. -/
theorem brainstormHook_phases (d : DB) (uid : Nat) (w : FiveW) :
    (brainstormHook d uid w).phases = d.phases := by
  unfold brainstormHook
  repeat' split
  all_goals rfl

/-- The hook is a no-op when no phase carries the canonical title. -/
theorem brainstormHook_none (d : DB) (uid : Nat) (w : FiveW)
    (h : (d.phases.filter (fun p => p.title = defineTopicTitle)).head? = none) :
    brainstormHook d uid w = d := by
  unfold brainstormHook
  by_cases hw : fiveWComplete w = true
  · rw [if_pos hw, h]
  · rw [if_neg hw]

/-- The hook is a no-op when the found phase already has the completion
task. -/
theorem brainstormHook_present (d : DB) (uid : Nat) (w : FiveW) (p : Phase)
    (hp : (d.phases.filter (fun q => q.title = defineTopicTitle)).head? = some p)
    (ha : (tasksOf d p).any (fun t => t.description = brainstormCompleteDesc) = true) :
    brainstormHook d uid w = d := by
  unfold brainstormHook
  by_cases hw : fiveWComplete w = true
  · rw [if_pos hw, hp]
    split
    · rename_i ph heq
      injection heq with h
      subst h
      rw [if_pos ha]
    · rename_i heq
      exact Option.noConfusion heq
  · rw [if_neg hw]

/-- The hook is a no-op when the 5W answers are not all truthy. -/
theorem brainstormHook_incomplete (d : DB) (uid : Nat) (w : FiveW)
    (hw : fiveWComplete w = false) :
    brainstormHook d uid w = d := by
  unfold brainstormHook
  rw [if_neg (by rw [hw]; exact Bool.false_ne_true)]

/-- With all 5W answers truthy, a phase found and no completion task yet,
the hook appends exactly one completion task with `completed = true`. -/
theorem brainstormHook_absent (d : DB) (uid : Nat) (w : FiveW) (p : Phase)
    (hw : fiveWComplete w = true)
    (hp : (d.phases.filter (fun q => q.title = defineTopicTitle)).head? = some p)
    (ha : (tasksOf d p).any (fun t => t.description = brainstormCompleteDesc) = false) :
    brainstormHook d uid w =
      { d with
          tasks := d.tasks ++
            [{ id := d.nextTaskId, description := brainstormCompleteDesc
               completed := true, userId := uid, phaseId := p.id }]
          nextTaskId := d.nextTaskId + 1 } := by
  unfold brainstormHook
  rw [if_pos hw, hp]
  split
  · rename_i ph heq
    injection heq with h
    subst h
    rw [ha]
    simp only [Bool.false_eq_true, if_false]
  · rename_i heq
    exact Option.noConfusion heq

/-! ## C8 — empty outline rejected, store untouched -/

/-- C8: saving an outline whose root sequence is empty (or absent, which the
request parsing collapses to the empty list) is rejected with status 400 and
the "cannot save an empty outline" message, and the store — the owner's
existing sections included — is returned completely unchanged. -/
theorem save_outline_empty_rejected (d : DB) (uid : Nat) :
    save_outline d uid [] =
      ({ status := 400, success := false, message := "Cannot save empty outline!" }, d) :=
  rfl

/-! ## C2 — sibling order of nested children -/

/-- C2 (refuting evaluation): recreating one root titled `R` with two
children `A`, `B` gives *both* children `order = 0` — the recursive call
wraps each child in a singleton list, so its enumerate index restarts at 0 —
while the claim requires the second child to get `order = 1`.  The root
itself gets its position 0. -/
theorem recreate_sections_child_order_zero :
    recreateSections
        [.mk (some "R") none [.mk (some "A") none [], .mk (some "B") none []]]
        9 none 1 =
      .ok ([{ id := 1, title := "R", summary := none, order := 0, parentId := none, userId := 9 },
            { id := 2, title := "A", summary := none, order := 0, parentId := some 1, userId := 9 },
            { id := 3, title := "B", summary := none, order := 0, parentId := some 1, userId := 9 }],
           4) := rfl

/-! ## C1 — the outline save is not atomic -/

/-- A store in which owner 7 has one committed section. -/
def atomicityDb : DB :=
  { sections := [{ id := 1, title := "Old", summary := none, order := 0,
                   parentId := none, userId := 7 }]
    phases := [], tasks := [], brains := []
    nextSectionId := 2, nextTaskId := 1, nextBrainId := 1 }

/-- A payload whose second root descriptor is missing its title, so
`_recreate_sections` raises `KeyError` after the deletion commit. -/
def atomicityPayload : List SectionInput :=
  [.mk (some "A") none [], .mk none none []]

/-- C1 (counterexample): owner 7 has a committed section; saving a payload
whose second descriptor lacks a title fails (500), yet the committed store
afterwards has *no* sections at all — the previously saved section did not
survive, because the deletion was committed before recreation began. -/
theorem save_outline_atomicity_cex :
    atomicityDb.sections ≠ [] ∧
    (save_outline atomicityDb 7 atomicityPayload).1.status = 500 ∧
    (save_outline atomicityDb 7 atomicityPayload).2.sections = [] :=
  ⟨by decide, rfl, rfl⟩

/-- C1 (amended): the save is two separately committed steps, not one
transaction.  For a non-empty payload the deletion of the owner's sections
is committed first; if recreation then fails, the committed store is
exactly the post-deletion store — the owner's old sections are gone and no
partial new tree is committed — and if recreation succeeds, the new tree is
appended to the post-deletion store in a second commit. -/
theorem save_outline_two_phase_commit (d : DB) (uid : Nat)
    (outline : List SectionInput) (hne : outline ≠ []) :
    (∀ e, recreateSections outline uid none d.nextSectionId = .error e →
        save_outline d uid outline =
          ({ status := 500, success := false, message := "Internal Server Error" },
           { d with sections := d.sections.filter (fun s => !(s.userId = uid)) })) ∧
    (∀ ns n, recreateSections outline uid none d.nextSectionId = .ok (ns, n) →
        save_outline d uid outline =
          ({ status := 201, success := true, message := "Outline saved" },
           { d with sections := d.sections.filter (fun s => !(s.userId = uid)) ++ ns,
                    nextSectionId := n })) := by
  have hni : outline.isEmpty = false := by
    cases outline with
    | nil => exact absurd rfl hne
    | cons a l => rfl
  constructor
  · intro e he
    simp only [save_outline, hni, Bool.false_eq_true, if_false, he]
  · intro ns n hok
    simp only [save_outline, hni, Bool.false_eq_true, if_false, hok]

/-- C1 (witness for the amended theorem): the failing payload above lands in
the error branch, and the resulting committed store is the post-deletion
store of `atomicityDb`. -/
theorem save_outline_two_phase_commit_witness :
    save_outline atomicityDb 7 atomicityPayload =
      ({ status := 500, success := false, message := "Internal Server Error" },
       { atomicityDb with
           sections := atomicityDb.sections.filter (fun s => !(s.userId = 7)) }) :=
  (save_outline_two_phase_commit atomicityDb 7 atomicityPayload
      (List.cons_ne_nil _ _)).1 "KeyError: title" rfl

/-! ## C3 — the brainstorming-complete hook writes across owners -/

/-- A store in which only user 1 has the 'Define Topic & Question' phase. -/
def crossOwnerDb : DB :=
  { sections := []
    phases := [{ id := 1, title := "Define Topic & Question", userId := 1,
                 startDate := none, endDate := none, deadline := none }]
    tasks := [], brains := []
    nextSectionId := 1, nextTaskId := 1, nextBrainId := 1 }

/-- A brainstorm payload with all five 5W answers filled in. -/
def completeBrainInput : BrainInput :=
  { fiveW := { why := some "a", what := some "b", whereAnswer := some "c",
               whenAnswer := some "d", who := some "e" }
    messages := "[]", overallFeedback := "", completed := false }

/-- C3 (refuting evaluation): every phase of `crossOwnerDb` belongs to
user 1, yet user 2's brainstorm save appends its completion task to user 1's
phase (the created task carries `phaseId = 1`): the hook's phase query is
not filtered by the caller's user identifier, so a write by one user mutates
another user's Phase. -/
theorem brainstorm_hook_cross_owner_write :
    crossOwnerDb.phases.all (fun p => p.userId = 1) = true ∧
    (save_brainstorm_session crossOwnerDb 2 completeBrainInput).2.tasks =
      [{ id := 1, description := "Brainstorm Complete", completed := true,
         userId := 2, phaseId := 1 }] :=
  ⟨rfl, rfl⟩

/-! ## C9 — the hook never creates the phase -/

/-- A store with no phases at all. -/
def noPhaseDb : DB :=
  { sections := [], phases := [], tasks := [], brains := []
    nextSectionId := 1, nextTaskId := 1, nextBrainId := 1 }

/-- C9 (counterexample): with all five 5W answers filled in and no
'Define Topic & Question' phase anywhere, the brainstorm save creates *no*
phase (and hence no completion task) — the claim's implicit phase creation
does not exist in the code. -/
theorem brainstorm_no_phase_creation_cex :
    fiveWComplete completeBrainInput.fiveW = true ∧
    (save_brainstorm_session noPhaseDb 1 completeBrainInput).2.phases = [] ∧
    (save_brainstorm_session noPhaseDb 1 completeBrainInput).2.tasks = [] :=
  ⟨rfl, rfl, rfl⟩

/-- C9 (amended): the hook only ever appends the completion task to an
*already existing* phase titled 'Define Topic & Question' (found without
owner filtering); when no such phase exists it does nothing — no phase is
created and no task appended — and when one exists without a
'Brainstorm Complete' task, the task is appended to it with
`completed = true`. -/
theorem brainstorm_hook_existing_phase_only (d : DB) (uid : Nat) (input : BrainInput) :
    (d.phases.filter (fun p => p.title = defineTopicTitle) = [] →
        (save_brainstorm_session d uid input).2.phases = d.phases ∧
        (save_brainstorm_session d uid input).2.tasks = d.tasks) ∧
    (∀ p, (d.phases.filter (fun p => p.title = defineTopicTitle)).head? = some p →
        fiveWComplete input.fiveW = true →
        (tasksOf d p).any (fun t => t.description = brainstormCompleteDesc) = false →
        (save_brainstorm_session d uid input).2.phases = d.phases ∧
        (save_brainstorm_session d uid input).2.tasks =
          d.tasks ++ [{ id := d.nextTaskId, description := brainstormCompleteDesc,
                        completed := true, userId := uid, phaseId := p.id }]) := by
  constructor
  · intro hfil
    have hnone : (d.phases.filter (fun p => p.title = defineTopicTitle)).head? = none := by
      rw [hfil]; rfl
    have h1 : (save_brainstorm_session d uid input).2 = withBrainEntry d uid input :=
      brainstormHook_none (withBrainEntry d uid input) uid input.fiveW hnone
    rw [h1]
    exact ⟨rfl, rfl⟩
  · intro p hp hw hany
    have h1 : (save_brainstorm_session d uid input).2 =
        { withBrainEntry d uid input with
            tasks := d.tasks ++
              [{ id := d.nextTaskId, description := brainstormCompleteDesc
                 completed := true, userId := uid, phaseId := p.id }]
            nextTaskId := d.nextTaskId + 1 } :=
      brainstormHook_absent (withBrainEntry d uid input) uid input.fiveW p hw hp hany
    rw [h1]
    exact ⟨rfl, rfl⟩

/-- C9 (witness for the amended theorem): in `crossOwnerDb` the phase
exists and has no completion task, so the save appends exactly one. -/
theorem brainstorm_hook_existing_phase_only_witness :
    (save_brainstorm_session crossOwnerDb 2 completeBrainInput).2.phases =
        crossOwnerDb.phases ∧
    (save_brainstorm_session crossOwnerDb 2 completeBrainInput).2.tasks =
      crossOwnerDb.tasks ++
        [{ id := 1, description := brainstormCompleteDesc, completed := true,
           userId := 2, phaseId := 1 }] :=
  (brainstorm_hook_existing_phase_only crossOwnerDb 2 completeBrainInput).2
    { id := 1, title := "Define Topic & Question", userId := 1,
      startDate := none, endDate := none, deadline := none } rfl rfl rfl

end P84

namespace P84

/-! ## Dashboard helper lemmas -/

/-- Unfolding of `phaseStatus` at a set deadline. -/
theorem phaseStatus_some (tasks : List Task) (dl now : Int) :
    phaseStatus tasks (some dl) now =
      if (!tasks.isEmpty && tasks.all (fun t => t.completed)) = true then "Completed"
      else if endOfDay dl < now then "Not Completed (Overdue)"
      else if endOfDay dl - now ≤ warning_threshold then "Not Completed (Deadline Approaching)"
      else "NotCompleted" := rfl

/-- Unfolding of `phaseStatus` at an unset deadline. -/
theorem phaseStatus_none (tasks : List Task) (now : Int) :
    phaseStatus tasks none now =
      if (!tasks.isEmpty && tasks.all (fun t => t.completed)) = true then "Completed"
      else "NotCompleted" := rfl

/-- The completion test of `fetch_planning` in propositional form. -/
theorem completed_cond_iff (tasks : List Task) :
    (!tasks.isEmpty && tasks.all (fun t => t.completed)) = true ↔
      tasks ≠ [] ∧ ∀ t ∈ tasks, t.completed = true := by
  constructor
  · intro hb
    rw [Bool.and_eq_true] at hb
    obtain ⟨h1, h2⟩ := hb
    refine ⟨?_, List.all_eq_true.mp h2⟩
    intro hnil
    rw [hnil] at h1
    simp at h1
  · intro ⟨h1, h2⟩
    rw [Bool.and_eq_true]
    refine ⟨?_, List.all_eq_true.mpr h2⟩
    cases tasks with
    | nil => exact absurd rfl h1
    | cons a l => rfl

/-- The deriver `phaseStatus` yields `"Completed"` exactly for a non-empty, fully
completed task list. -/
theorem phaseStatus_completed_iff (tasks : List Task) (deadline : Option Int) (now : Int) :
    phaseStatus tasks deadline now = "Completed" ↔
      tasks ≠ [] ∧ ∀ t ∈ tasks, t.completed = true := by
  by_cases hb : (!tasks.isEmpty && tasks.all (fun t => t.completed)) = true
  · refine iff_of_true ?_ (completed_cond_iff tasks |>.mp hb)
    cases deadline with
    | none => rw [phaseStatus_none, if_pos hb]
    | some dl => rw [phaseStatus_some, if_pos hb]
  · refine iff_of_false ?_ (fun hr => hb ((completed_cond_iff tasks).mpr hr))
    cases deadline with
    | none =>
      rw [phaseStatus_none, if_neg hb]
      decide
    | some dl =>
      rw [phaseStatus_some, if_neg hb]
      by_cases h1 : endOfDay dl < now
      · rw [if_pos h1]; decide
      · rw [if_neg h1]
        by_cases h2 : endOfDay dl - now ≤ warning_threshold
        · rw [if_pos h2]; decide
        · rw [if_neg h2]; decide

/-- A record whose derived status is `"Completed"` comes from a found phase
whose status computation yields `"Completed"`. -/
theorem phaseRecordFor_status_completed {d : DB} {up : List Phase} {now : Int}
    {i : Nat} {t : String}
    (h : (phaseRecordFor d up now i t).status = "Completed") :
    ∃ p, lookupPhase up t = some p ∧
      phaseStatus (tasksOf d p) p.deadline now = "Completed" := by
  unfold phaseRecordFor at h
  cases hlp : lookupPhase up t with
  | none =>
    rw [hlp] at h
    exact absurd h (show ¬("NotCompleted" = "Completed") by decide)
  | some ph =>
    rw [hlp] at h
    exact ⟨ph, rfl, h⟩

/-- The synthesized id of a dashboard record is its 1-based rank. -/
theorem phaseRecordFor_id (d : DB) (up : List Phase) (now : Int) (i : Nat) (t : String) :
    (phaseRecordFor d up now i t).id = i + 1 := by
  unfold phaseRecordFor
  cases hlp : lookupPhase up t with
  | none => rfl
  | some ph => rfl

/-- The title of a dashboard record is the canonical title it was produced
for (a found phase bears that title, having been looked up by it). -/
theorem phaseRecordFor_title (d : DB) (up : List Phase) (now : Int) (i : Nat) (t : String) :
    (phaseRecordFor d up now i t).title = t := by
  unfold phaseRecordFor
  cases hlp : lookupPhase up t with
  | none => rfl
  | some ph => exact (lookupPhase_mem hlp).2

/-! ## C4 — Completed iff at least one task and all completed -/

/-- C4: in the dashboard derivation a status is `"Completed"` exactly when
the task list is non-empty with every task completed; lifted to
`fetch_planning`, any record reporting `"Completed"` comes from an owned
phase with at least one task and all tasks completed (so a phase with zero
tasks is never reported `"Completed"`). -/
theorem dashboard_completed_iff :
    (∀ (tasks : List Task) (deadline : Option Int) (now : Int),
        phaseStatus tasks deadline now = "Completed" ↔
          tasks ≠ [] ∧ ∀ t ∈ tasks, t.completed = true) ∧
    (∀ (d : DB) (uid : Nat) (now : Int) (r : PhaseRecord),
        r ∈ fetch_planning d uid now → r.status = "Completed" →
          ∃ p, p ∈ d.phases ∧ p.userId = uid ∧ p.title = r.title ∧
            tasksOf d p ≠ [] ∧ ∀ t ∈ tasksOf d p, t.completed = true) := by
  refine ⟨phaseStatus_completed_iff, ?_⟩
  intro d uid now r hmem hst
  unfold fetch_planning at hmem
  obtain ⟨it, hit, hr⟩ := List.mem_map.mp hmem
  rw [← hr] at hst
  obtain ⟨ph, hlp, hcomp⟩ := phaseRecordFor_status_completed hst
  obtain ⟨hmemf, htitle⟩ := lookupPhase_mem hlp
  obtain ⟨hph, hpuid⟩ := List.mem_filter.mp hmemf
  obtain ⟨hne, hall⟩ := (phaseStatus_completed_iff _ _ _).mp hcomp
  refine ⟨ph, hph, of_decide_eq_true hpuid, ?_, hne, hall⟩
  rw [← hr, phaseRecordFor_title, htitle]

/-- C4 (witness): a phase with one completed task derives `"Completed"`. -/
theorem dashboard_completed_iff_witness :
    phaseStatus [{ id := 1, description := "T1", completed := true,
                   userId := 4, phaseId := 2 }] none 0 = "Completed" :=
  (dashboard_completed_iff.1 _ none 0).mpr ⟨by decide, by decide⟩

/-! ## C5 — deadline-driven statuses for incomplete phases -/

/-- C5: for a phase that is not fully completed, the derived status is
determined by the deadline's end-of-day against now: no deadline keeps
`"NotCompleted"`; an end-of-day before now gives the overdue status; an
end-of-day not before now but within the 7-day window gives the approaching
status; a farther end-of-day keeps `"NotCompleted"`. -/
theorem dashboard_deadline_cases (tasks : List Task) (now : Int)
    (hnc : ¬(tasks ≠ [] ∧ ∀ t ∈ tasks, t.completed = true)) :
    phaseStatus tasks none now = "NotCompleted" ∧
    (∀ dl : Int, endOfDay dl < now →
        phaseStatus tasks (some dl) now = "Not Completed (Overdue)") ∧
    (∀ dl : Int, ¬ endOfDay dl < now → endOfDay dl - now ≤ warning_threshold →
        phaseStatus tasks (some dl) now = "Not Completed (Deadline Approaching)") ∧
    (∀ dl : Int, ¬ endOfDay dl < now → warning_threshold < endOfDay dl - now →
        phaseStatus tasks (some dl) now = "NotCompleted") := by
  have hb : ¬(!tasks.isEmpty && tasks.all (fun t => t.completed)) = true :=
    fun htrue => hnc ((completed_cond_iff tasks).mp htrue)
  refine ⟨?_, ?_, ?_, ?_⟩
  · rw [phaseStatus_none, if_neg hb]
  · intro dl h1
    rw [phaseStatus_some, if_neg hb, if_pos h1]
  · intro dl h1 h2
    rw [phaseStatus_some, if_neg hb, if_neg h1, if_pos h2]
  · intro dl h1 h2
    rw [phaseStatus_some, if_neg hb, if_neg h1, if_neg (not_le.mpr h2)]

/-- C5 (witness): with one incomplete task, a deadline whose day ended two
days before now is overdue. -/
theorem dashboard_deadline_cases_witness :
    phaseStatus [{ id := 1, description := "T1", completed := false,
                   userId := 4, phaseId := 2 }] (some (-2)) 0 =
      "Not Completed (Overdue)" :=
  (dashboard_deadline_cases
      [{ id := 1, description := "T1", completed := false, userId := 4, phaseId := 2 }] 0
      (by simp)).2.1 (-2) (by decide)

/-! ## C6 — always exactly five records in the fixed order -/

/-- C6: for every store, owner and clock, the dashboard read returns exactly
five records whose (id, title) pairs are the fixed five canonical titles in
their fixed order with 1-based ranks as ids — independent of creation order
and of the stored phase identifiers. -/
theorem fetch_planning_fixed_five (d : DB) (uid : Nat) (now : Int) :
    (fetch_planning d uid now).length = 5 ∧
    (fetch_planning d uid now).map (fun r => (r.id, r.title)) =
      [(1, "Define Topic & Question"), (2, "Literature Review"), (3, "Identify Gaps"),
       (4, "Plan Methodology"), (5, "Write & Revise")] := by
  constructor
  · unfold fetch_planning
    rw [List.length_map]
    rfl
  · unfold fetch_planning
    rw [List.map_map]
    rw [List.map_congr_left (g := fun it : Nat × String => (it.1 + 1, it.2)) ?_]
    · rfl
    · intro it _
      show ((phaseRecordFor d (d.phases.filter (fun p => p.userId = uid)) now it.1 it.2).id,
            (phaseRecordFor d (d.phases.filter (fun p => p.userId = uid)) now it.1 it.2).title) =
           (it.1 + 1, it.2)
      rw [phaseRecordFor_id, phaseRecordFor_title]

end P84

namespace P84

/-! ## C10 — idempotence of the brainstorming-complete side effect -/

/-- One brainstorm save never touches the phase table. -/
theorem save_brainstorm_phases (d : DB) (uid : Nat) (input : BrainInput) :
    (save_brainstorm_session d uid input).2.phases = d.phases :=
  brainstormHook_phases (withBrainEntry d uid input) uid input.fiveW

/-- One brainstorm save preserves the completion-task invariant: the found
phase keeps at most one 'Brainstorm Complete' task, every such task
completed. -/
theorem brainstorm_invariant_step (d : DB) (uid : Nat) (input : BrainInput) (p : Phase)
    (hw : fiveWComplete input.fiveW = true)
    (hp : (d.phases.filter (fun q => q.title = defineTopicTitle)).head? = some p)
    (hc : (tasksOf d p).countP (fun t => t.description = brainstormCompleteDesc) ≤ 1)
    (hcompl : ∀ t ∈ tasksOf d p,
        t.description = brainstormCompleteDesc → t.completed = true) :
    (save_brainstorm_session d uid input).2.phases = d.phases ∧
    (tasksOf (save_brainstorm_session d uid input).2 p).countP
        (fun t => t.description = brainstormCompleteDesc) ≤ 1 ∧
    (∀ t ∈ tasksOf (save_brainstorm_session d uid input).2 p,
        t.description = brainstormCompleteDesc → t.completed = true) := by
  by_cases ha : (tasksOf d p).any (fun t => t.description = brainstormCompleteDesc) = true
  · have h1 : (save_brainstorm_session d uid input).2 = withBrainEntry d uid input :=
      brainstormHook_present (withBrainEntry d uid input) uid input.fiveW p hp ha
    rw [h1]
    exact ⟨rfl, hc, hcompl⟩
  · have ha' : (tasksOf d p).any (fun t => t.description = brainstormCompleteDesc) = false :=
      Bool.eq_false_iff.mpr ha
    have h1 : (save_brainstorm_session d uid input).2 =
        { withBrainEntry d uid input with
            tasks := d.tasks ++
              [{ id := d.nextTaskId, description := brainstormCompleteDesc
                 completed := true, userId := uid, phaseId := p.id }]
            nextTaskId := d.nextTaskId + 1 } :=
      brainstormHook_absent (withBrainEntry d uid input) uid input.fiveW p hw hp ha'
    rw [h1]
    have hzero : ∀ t ∈ tasksOf d p, ¬ t.description = brainstormCompleteDesc := by
      intro t ht hdesc
      exact (List.any_eq_false.mp ha' t ht) (decide_eq_true hdesc)
    have htof : tasksOf
        { withBrainEntry d uid input with
            tasks := d.tasks ++
              [{ id := d.nextTaskId, description := brainstormCompleteDesc
                 completed := true, userId := uid, phaseId := p.id }]
            nextTaskId := d.nextTaskId + 1 } p =
        tasksOf d p ++
          [{ id := d.nextTaskId, description := brainstormCompleteDesc
             completed := true, userId := uid, phaseId := p.id }] := by
      show (d.tasks ++
          [({ id := d.nextTaskId, description := brainstormCompleteDesc
              completed := true, userId := uid, phaseId := p.id } : Task)]).filter
            (fun t : Task => t.phaseId = p.id) = _
      rw [List.filter_append]
      congr 1
      simp
    rw [htof]
    refine ⟨rfl, ?_, ?_⟩
    · rw [List.countP_append]
      have h0 : (tasksOf d p).countP (fun t => t.description = brainstormCompleteDesc) = 0 :=
        List.countP_eq_zero.mpr (fun t ht => fun hpred =>
          hzero t ht (of_decide_eq_true hpred))
      rw [h0]
      simp
    · intro t ht hdesc
      rcases List.mem_append.mp ht with hold | hnew
      · exact absurd hdesc (hzero t hold)
      · have ht' : t = { id := d.nextTaskId, description := brainstormCompleteDesc
                         completed := true, userId := uid, phaseId := p.id } := by
          simpa using hnew
        rw [ht']

end P84

namespace P84

/-- The completion-task invariant is preserved through any number of
brainstorm saves. -/
theorem brainstorm_invariant_iter (uid : Nat) (input : BrainInput) (p : Phase)
    (hw : fiveWComplete input.fiveW = true) :
    ∀ (n : Nat) (d : DB),
      (d.phases.filter (fun q => q.title = defineTopicTitle)).head? = some p →
      (tasksOf d p).countP (fun t => t.description = brainstormCompleteDesc) ≤ 1 →
      (∀ t ∈ tasksOf d p,
          t.description = brainstormCompleteDesc → t.completed = true) →
      (iterateBrainSave uid input n d).phases = d.phases ∧
      (tasksOf (iterateBrainSave uid input n d) p).countP
          (fun t => t.description = brainstormCompleteDesc) ≤ 1 ∧
      (∀ t ∈ tasksOf (iterateBrainSave uid input n d) p,
          t.description = brainstormCompleteDesc → t.completed = true) := by
  intro n
  induction n with
  | zero =>
    intro d hp hc hcompl
    exact ⟨rfl, hc, hcompl⟩
  | succ n ih =>
    intro d hp hc hcompl
    obtain ⟨hph, hc', hcompl'⟩ := brainstorm_invariant_step d uid input p hw hp hc hcompl
    have hp' : ((save_brainstorm_session d uid input).2.phases.filter
        (fun q => q.title = defineTopicTitle)).head? = some p := by
      rw [hph]; exact hp
    obtain ⟨ha, hb, hcm⟩ := ih (save_brainstorm_session d uid input).2 hp' hc' hcompl'
    refine ⟨?_, hb, hcm⟩
    show (iterateBrainSave uid input n (save_brainstorm_session d uid input).2).phases =
      d.phases
    rw [ha, hph]

/-! ### The C10 claim -/

/-- C10: the brainstorming-complete side effect is idempotent — starting
from a store whose looked-up target phase has no 'Brainstorm Complete'
task, any number of brainstorm saves with all five 5W answers filled in
leaves the target phase with at most one 'Brainstorm Complete' task, and
every such task carries `completed = true`. -/
theorem brainstorm_complete_idempotent (d : DB) (uid : Nat) (input : BrainInput)
    (n : Nat) (p : Phase)
    (hw : fiveWComplete input.fiveW = true)
    (hp : (d.phases.filter (fun q => q.title = defineTopicTitle)).head? = some p)
    (h0 : (tasksOf d p).countP (fun t => t.description = brainstormCompleteDesc) = 0) :
    (tasksOf (iterateBrainSave uid input n d) p).countP
        (fun t => t.description = brainstormCompleteDesc) ≤ 1 ∧
    ∀ t ∈ tasksOf (iterateBrainSave uid input n d) p,
      t.description = brainstormCompleteDesc → t.completed = true := by
  have hcompl : ∀ t ∈ tasksOf d p,
      t.description = brainstormCompleteDesc → t.completed = true := by
    intro t ht hdesc
    exact absurd (decide_eq_true hdesc) (List.countP_eq_zero.mp h0 t ht)
  obtain ⟨_, hc, hcm⟩ :=
    brainstorm_invariant_iter uid input p hw n d hp
      (Nat.le_trans h0.le (Nat.zero_le 1)) hcompl
  exact ⟨hc, hcm⟩

/-- C10 (witness): three consecutive complete brainstorm saves against a
store with the target phase leave it with at most one completion task. -/
theorem brainstorm_complete_idempotent_witness :
    (tasksOf (iterateBrainSave 2 completeBrainInput 3 crossOwnerDb)
        { id := 1, title := "Define Topic & Question", userId := 1,
          startDate := none, endDate := none, deadline := none }).countP
        (fun t => t.description = brainstormCompleteDesc) ≤ 1 :=
  (brainstorm_complete_idempotent crossOwnerDb 2 completeBrainInput 3
      { id := 1, title := "Define Topic & Question", userId := 1,
        startDate := none, endDate := none, deadline := none }
      rfl rfl rfl).1

end P84

namespace P84

/-! ## C7 — recursive subtree deletion -/

/-- Application-maintained shape invariant: every parent link points to a
strictly smaller identifier (parents are created and flushed before their
children by `_recreate_sections`, and neither identifiers nor parent links
are ever updated). -/
def parentLtB (secs : List Section) : Bool :=
  secs.all (fun s =>
    match s.parentId with
    | none => true
    | some p => p < s.id)

/-- Spec §3 invariant: every non-root Section's parent belongs to the same
owner. -/
def ownerInvB (secs : List Section) : Bool :=
  secs.all (fun s =>
    match s.parentId with
    | none => true
    | some p => (secs.filter (fun q => q.id = p)).all (fun q => q.userId = s.userId))

/-- Descendance `Desc secs r x`: the identifier `x` is `r` itself or a transitive
descendant of `r` through the parent links of `secs` — the spec's "the node
and its entire descendant subtree". -/
inductive Desc (secs : List Section) (r : Nat) : Nat → Prop
  | refl : Desc secs r r
  | step {p : Nat} {s : Section} (hd : Desc secs r p) (hs : s ∈ secs)
      (hp : s.parentId = some p) : Desc secs r s.id

/-- The head reported by `head?` is a member of the list. -/
theorem head?_mem_list {α : Type _} {l : List α} {a : α}
    (h : l.head? = some a) : a ∈ l := by
  cases l with
  | nil => exact Option.noConfusion h
  | cons b t =>
    injection h with h
    exact h ▸ List.mem_cons_self b t

/-- Extracting the parent bound from `parentLtB`. -/
theorem parentLt_of {secs : List Section} (h : parentLtB secs = true)
    {s : Section} (hs : s ∈ secs) {p : Nat} (hp : s.parentId = some p) :
    p < s.id := by
  have hall := List.all_eq_true.mp h s hs
  rw [hp] at hall
  exact of_decide_eq_true hall

/-- Transitivity of descendance. -/
theorem desc_trans {secs : List Section} {a b c : Nat}
    (h1 : Desc secs a b) (h2 : Desc secs b c) : Desc secs a c := by
  induction h2 with
  | refl => exact h1
  | step hd hs hp ih => exact Desc.step ih hs hp

/-- A descendance chain decomposes at its first step: the target is the
root itself, or lies in the subtree of a direct child of the root. -/
theorem desc_first_step {secs : List Section} {r x : Nat} (h : Desc secs r x) :
    x = r ∨ ∃ c ∈ secs, c.parentId = some r ∧ Desc secs c.id x := by
  induction h with
  | refl => exact Or.inl rfl
  | step hd hs hp ih =>
    rename_i p s
    cases ih with
    | inl hpr => exact Or.inr ⟨s, hs, hpr ▸ hp, Desc.refl⟩
    | inr hex =>
      obtain ⟨c, hc, hcp, hdc⟩ := hex
      exact Or.inr ⟨c, hc, hcp, Desc.step hdc hs hp⟩

/-- Filtering by a weaker predicate keeps at least as many elements. -/
theorem length_filter_mono {α : Type _} (l : List α) (p q : α → Bool)
    (himp : ∀ a, q a = true → p a = true) :
    (l.filter q).length ≤ (l.filter p).length := by
  induction l with
  | nil => exact Nat.le_refl 0
  | cons a t ih =>
    rw [List.filter_cons, List.filter_cons]
    by_cases hq : q a = true
    · rw [if_pos hq, if_pos (himp a hq)]
      simp only [List.length_cons]
      exact Nat.succ_le_succ ih
    · rw [if_neg hq]
      by_cases hpa : p a = true
      · rw [if_pos hpa]
        simp only [List.length_cons]
        exact Nat.le_succ_of_le ih
      · rw [if_neg hpa]
        exact ih

/-- Filtering by a strictly weaker predicate — witnessed by an element kept
by one and dropped by the other — keeps strictly more elements. -/
theorem length_filter_lt {α : Type _} (l : List α) (p q : α → Bool)
    (himp : ∀ a, q a = true → p a = true)
    (c : α) (hc : c ∈ l) (hpc : p c = true) (hqc : q c = false) :
    (l.filter q).length < (l.filter p).length := by
  induction l with
  | nil => exact absurd hc (List.not_mem_nil c)
  | cons a t ih =>
    rw [List.filter_cons, List.filter_cons]
    rcases List.mem_cons.mp hc with hca | hct
    · rw [← hca, if_pos hpc, if_neg (by rw [hqc]; exact Bool.false_ne_true)]
      simp only [List.length_cons]
      exact Nat.lt_succ_of_le (length_filter_mono t p q himp)
    · by_cases hq : q a = true
      · rw [if_pos hq, if_pos (himp a hq)]
        simp only [List.length_cons]
        exact Nat.succ_lt_succ (ih hct)
      · rw [if_neg hq]
        by_cases hpa : p a = true
        · rw [if_pos hpa]
          simp only [List.length_cons]
          exact Nat.lt_succ_of_lt (ih hct)
        · rw [if_neg hpa]
          exact ih hct

/-- Under the parent-identifier bound, `subtreeIds` with enough fuel
collects exactly the descendance closure: the strictly increasing
identifiers along any chain bound its depth by the number of sections with
larger identifiers than the root. -/
theorem subtree_mem_iff {secs : List Section} (hpl : parentLtB secs = true) :
    ∀ (fuel r : Nat),
      (secs.filter (fun s => r < s.id)).length ≤ fuel →
      ∀ x, x ∈ subtreeIds secs fuel r ↔ Desc secs r x := by
  intro fuel
  induction fuel with
  | zero =>
    intro r hle x
    simp only [subtreeIds]
    constructor
    · intro hx
      have hxr : x = r := by simpa using hx
      exact hxr ▸ Desc.refl
    · intro hd
      rcases desc_first_step hd with heq | hex
      · simp [heq]
      · exfalso
        obtain ⟨c, hc, hcp, _⟩ := hex
        have hlt : r < c.id := parentLt_of hpl hc hcp
        have hmem : c ∈ secs.filter (fun s => r < s.id) :=
          List.mem_filter.mpr ⟨hc, decide_eq_true hlt⟩
        have hnil : secs.filter (fun s => r < s.id) = [] :=
          List.length_eq_zero.mp (Nat.le_zero.mp hle)
        rw [hnil] at hmem
        exact List.not_mem_nil c hmem
  | succ fuel ih =>
    intro r hle x
    have hcount : ∀ c : Section, c ∈ secs → c.parentId = some r →
        (secs.filter (fun s => c.id < s.id)).length ≤ fuel := by
      intro c hcsecs hcp
      have hlt : r < c.id := parentLt_of hpl hcsecs hcp
      have hstrict : (secs.filter (fun s => c.id < s.id)).length <
          (secs.filter (fun s => r < s.id)).length := by
        refine length_filter_lt secs _ _ ?_ c hcsecs (decide_eq_true hlt)
          (decide_eq_false (lt_irrefl c.id))
        intro a ha
        exact decide_eq_true (lt_trans hlt (of_decide_eq_true ha))
      exact Nat.lt_succ_iff.mp (Nat.lt_of_lt_of_le hstrict hle)
    simp only [subtreeIds]
    constructor
    · intro hx
      rcases List.mem_append.mp hx with hflat | hr
      · obtain ⟨cid, hcid, hxc⟩ := List.mem_flatMap.mp hflat
        obtain ⟨c, hcmem, hceq⟩ := List.mem_map.mp hcid
        obtain ⟨hcsecs, hcpar⟩ := List.mem_filter.mp hcmem
        have hcp : c.parentId = some r := of_decide_eq_true hcpar
        have hdx : Desc secs c.id x :=
          (ih c.id (hcount c hcsecs hcp) x).mp (hceq ▸ hxc)
        exact desc_trans (Desc.step Desc.refl hcsecs hcp) hdx
      · have hxr : x = r := by simpa using hr
        exact hxr ▸ Desc.refl
    · intro hd
      rcases desc_first_step hd with heq | hex
      · apply List.mem_append.mpr
        right
        simp [heq]
      · obtain ⟨c, hc, hcp, hdc⟩ := hex
        apply List.mem_append.mpr
        left
        apply List.mem_flatMap.mpr
        have hcmem : c ∈ childSections secs r :=
          List.mem_filter.mpr ⟨hc, decide_eq_true hcp⟩
        exact ⟨c.id, List.mem_map.mpr ⟨c, hcmem, rfl⟩,
               (ih c.id (hcount c hc hcp) x).mpr hdc⟩

/-- Under the same-owner invariant, every descendant identifier of an owned
section is carried by a section of the same owner. -/
theorem desc_owner {secs : List Section} (hown : ownerInvB secs = true)
    {sec : Section} (hsec : sec ∈ secs) {uid : Nat} (huid : sec.userId = uid) :
    ∀ x, Desc secs sec.id x → ∃ q, q ∈ secs ∧ q.id = x ∧ q.userId = uid := by
  intro x hd
  induction hd with
  | refl => exact ⟨sec, hsec, rfl, huid⟩
  | step hd hs hp ih =>
    rename_i p s
    obtain ⟨q, hq, hqid, hquid⟩ := ih
    have hall := List.all_eq_true.mp hown s hs
    rw [hp] at hall
    have hqf : q ∈ secs.filter (fun w => w.id = p) :=
      List.mem_filter.mpr ⟨hq, decide_eq_true hqid⟩
    have hsame : q.userId = s.userId :=
      of_decide_eq_true (List.all_eq_true.mp hall q hqf)
    exact ⟨s, hs, rfl, hsame ▸ hquid⟩

/-- With pairwise distinct identifiers, sections are determined by id. -/
theorem eq_of_same_id {secs : List Section}
    (hnd : (secs.map (fun s => s.id)).Nodup)
    {a b : Section} (ha : a ∈ secs) (hb : b ∈ secs) (hid : a.id = b.id) :
    a = b :=
  List.inj_on_of_nodup_map hnd ha hb hid

/-- The operation `delete_outline` signals not-found exactly when the owner-scoped lookup
comes back empty. -/
theorem delete_outline_eq_none {d : DB} {uid secId : Nat}
    (h : (d.sections.filter (fun s => s.id = secId && s.userId = uid)).head? = none) :
    delete_outline d uid secId = none := by
  unfold delete_outline
  rw [h]

/-- On a successful lookup, `delete_outline` filters out the subtree
identifiers of the found section. -/
theorem delete_outline_eq_some {d : DB} {uid secId : Nat} {sec : Section}
    (h : (d.sections.filter (fun s => s.id = secId && s.userId = uid)).head? = some sec) :
    delete_outline d uid secId =
      some { d with
               sections := d.sections.filter
                 (fun s => !(s.id ∈ subtreeIds d.sections d.sections.length sec.id)) } := by
  unfold delete_outline
  rw [h]

end P84

namespace P84

/-! ### The C7 claim -/

/-- C7: under the store invariants the application maintains (distinct
identifiers, parents created before children, parents owned by their
children's owner), the outline delete signals not-found exactly when no
section with the given identifier belongs to the caller; on success it
removes exactly the found node and its transitive descendants, keeps every
other section (in particular sections of other owners: everything removed
belongs to the caller), and leaves the other tables untouched. -/
theorem delete_outline_spec (d : DB) (uid secId : Nat)
    (hnd : (d.sections.map (fun s => s.id)).Nodup)
    (hpl : parentLtB d.sections = true)
    (hown : ownerInvB d.sections = true) :
    ((∀ s ∈ d.sections, ¬(s.id = secId ∧ s.userId = uid)) →
        delete_outline d uid secId = none) ∧
    ((∃ s, s ∈ d.sections ∧ s.id = secId ∧ s.userId = uid) →
        delete_outline d uid secId ≠ none) ∧
    (∀ d', delete_outline d uid secId = some d' →
        (∀ s ∈ d.sections, (s ∈ d'.sections ↔ ¬ Desc d.sections secId s.id)) ∧
        (∀ s ∈ d'.sections, s ∈ d.sections) ∧
        (∀ s ∈ d.sections, s ∉ d'.sections → s.userId = uid) ∧
        d'.phases = d.phases ∧ d'.tasks = d.tasks ∧ d'.brains = d.brains) := by
  refine ⟨?_, ?_, ?_⟩
  · intro hnone
    cases hh : (d.sections.filter (fun s => s.id = secId && s.userId = uid)).head? with
    | none => exact delete_outline_eq_none hh
    | some sec =>
      exfalso
      obtain ⟨hsmem, hpred⟩ := List.mem_filter.mp (head?_mem_list hh)
      rw [Bool.and_eq_true] at hpred
      exact hnone sec hsmem ⟨of_decide_eq_true hpred.1, of_decide_eq_true hpred.2⟩
  · intro hex
    obtain ⟨s, hs, hid, huid⟩ := hex
    cases hh : (d.sections.filter (fun s => s.id = secId && s.userId = uid)).head? with
    | some sec =>
      rw [delete_outline_eq_some hh]
      exact Option.noConfusion
    | none =>
      exfalso
      have hmem : s ∈ d.sections.filter (fun s => s.id = secId && s.userId = uid) :=
        List.mem_filter.mpr ⟨hs, by
          rw [Bool.and_eq_true]
          exact ⟨decide_eq_true hid, decide_eq_true huid⟩⟩
      cases hfl : d.sections.filter (fun s => s.id = secId && s.userId = uid) with
      | nil => rw [hfl] at hmem; exact List.not_mem_nil s hmem
      | cons a t => rw [hfl] at hh; exact Option.noConfusion hh
  · intro d' hd'
    cases hh : (d.sections.filter (fun s => s.id = secId && s.userId = uid)).head? with
    | none =>
      rw [delete_outline_eq_none hh] at hd'
      exact Option.noConfusion hd'
    | some sec =>
      rw [delete_outline_eq_some hh] at hd'
      injection hd' with hd'
      obtain ⟨hsecmem, hsecpred⟩ := List.mem_filter.mp (head?_mem_list hh)
      rw [Bool.and_eq_true] at hsecpred
      have hsecid : sec.id = secId := of_decide_eq_true hsecpred.1
      have hsecuid : sec.userId = uid := of_decide_eq_true hsecpred.2
      have hiff : ∀ x, x ∈ subtreeIds d.sections d.sections.length sec.id ↔
          Desc d.sections sec.id x :=
        fun x => subtree_mem_iff hpl d.sections.length sec.id
          (List.length_filter_le _ _) x
      subst hd'
      refine ⟨?_, ?_, ?_, rfl, rfl, rfl⟩
      · intro s hs
        constructor
        · intro hmem' hdesc
          obtain ⟨_, hpredmem⟩ := List.mem_filter.mp hmem'
          have hnotin : ¬ s.id ∈ subtreeIds d.sections d.sections.length sec.id := by
            simpa using hpredmem
          apply hnotin
          apply (hiff s.id).mpr
          rw [hsecid]
          exact hdesc
        · intro hnotdesc
          apply List.mem_filter.mpr
          refine ⟨hs, ?_⟩
          have hnotin : ¬ s.id ∈ subtreeIds d.sections d.sections.length sec.id := by
            intro hin
            apply hnotdesc
            have := (hiff s.id).mp hin
            rw [hsecid] at this
            exact this
          simp [hnotin]
      · intro s hs'
        exact (List.mem_filter.mp hs').1
      · intro s hs hnotmem
        have hin : s.id ∈ subtreeIds d.sections d.sections.length sec.id := by
          by_contra hnot
          exact hnotmem (List.mem_filter.mpr ⟨hs, by simp [hnot]⟩)
        obtain ⟨q, hq, hqid, hquid⟩ :=
          desc_owner hown hsecmem hsecuid s.id ((hiff s.id).mp hin)
        have hqs : q = s := eq_of_same_id hnd hq hs hqid
        rw [← hqs]
        exact hquid

/-- A concrete store satisfying the invariants: user 1 owns a root (id 1)
with a child (id 2) and a separate root (id 3); user 2 owns a root (id 4). -/
def deleteDb : DB :=
  { sections :=
      [{ id := 1, title := "Root", summary := none, order := 0, parentId := none, userId := 1 },
       { id := 2, title := "Child", summary := none, order := 0, parentId := some 1, userId := 1 },
       { id := 3, title := "Sibling", summary := none, order := 1, parentId := none, userId := 1 },
       { id := 4, title := "Other", summary := none, order := 0, parentId := none, userId := 2 }]
    phases := [], tasks := [], brains := []
    nextSectionId := 5, nextTaskId := 1, nextBrainId := 1 }

/-- C7 (witness): looking up an identifier that exists only under another
owner (user 2 asking for user 1's root) signals not-found. -/
theorem delete_outline_spec_witness :
    delete_outline deleteDb 2 1 = none :=
  (delete_outline_spec deleteDb 2 1 (by decide) (by decide) (by decide)).1 (by decide)

end P84
